import Mathlib

/-
Verification of the imgor photo-organizing core (file grouping and rename
planning) against its natural-language specification.

Modelling conventions, shared by all definitions below:
  * A filesystem path (Rust `PathBuf`) is its component sequence, `List String`
    (the root directory is the component "/").  Paths are assumed already
    normalized: a filename component is any component other than "/", "."
    and "..", matching what `Path::file_name` accepts on normalized paths.
  * Rust `String`/`&str` values are Lean `String`s (all Rust strings are
    UTF-8; the UTF-8 byte order used by Rust string comparison agrees with
    the code-point order used here).
  * `chrono::DateTime<UTC>` is a calendar date plus a second-of-day; its
    `Ord` instance (chronological order on valid values) is lexicographic
    on (year, month, day, second-of-day).
  * A Rust panic (`expect`, `assert!`) is the `none` of an `Option` result;
    recoverable `imgor::Result` errors are the `Except` error channel.
  * The `HashMap<&Path, Photo>` of `group_photo_files_impl` is an
    association list with unique keys; `hmInsert` is `HashMap::insert`
    (overwrite on an existing key), `hmAdjust` is `get_mut` plus a
    mutation of the stored value.  Its nondeterministic value-enumeration
    order is treated explicitly where a claim depends on it.
-/

/-- A path as its list of components (src/paths.rs, std::path::PathBuf). -/
abbrev FPath := List String

/-- Rust `Path::join` with a single filename component. -/
def pathJoin (p : FPath) (n : String) : FPath := p ++ [n]

/-- Rust `Path::file_name`: the last component when it is a normal
filename component. -/
def fileName (p : FPath) : Option String :=
  match p.getLast? with
  | none => none
  | some c => if c = "/" ∨ c = "." ∨ c = ".." then none else some c

/-- The filename's stem per Rust `Path::file_stem`: the part before the
last dot, except that a name with no dot, or whose only relevant dot is
at position 0, is its own stem. -/
def stemOfFileName (n : String) : String :=
  let rev := n.toList.reverse
  if '.' ∈ rev then
    let stem := ((rev.dropWhile (fun c => c ≠ '.')).tail).reverse
    if stem.isEmpty then n else stem.asString
  else n

/-- Rust `Path::file_stem` = `file_name` followed by the stem split. -/
def fileStem (p : FPath) : Option String := (fileName p).map stemOfFileName

/-- Total version of `fileName` used to state theorems (defaults to ""). -/
def fileNameD (p : FPath) : String := (fileName p).getD ""

/-- Rust `str::replace` for a nonempty pattern: scan left to right,
replacing each leftmost non-overlapping occurrence of `old` by `new`.
The fuel is the length of the scanned list, which each step consumes.
(The empty-pattern case, which the program never reaches, leaves the
input unchanged.) -/
def replaceAllAux (old new : List Char) : Nat → List Char → List Char
  | _, [] => []
  | 0, s => s
  | fuel+1, c :: rest =>
    if old ≠ [] ∧ old.isPrefixOf (c :: rest) then
      new ++ replaceAllAux old new fuel (rest.drop (old.length - 1))
    else
      c :: replaceAllAux old new fuel rest

/-- Rust `str::replace` on character lists. -/
def replaceAll (old new s : List Char) : List Char := replaceAllAux old new s.length s

/-- Rust `str::replace` on strings. -/
def replaceStr (s old new : String) : String := (replaceAll old.toList new.toList s.toList).asString

/-- Rust `str::to_lowercase`, ASCII fragment (the extension tails the
program lowercases are ASCII). -/
def lowerStr (s : String) : String := (s.toList.map Char.toLower).asString

/-- src/main.rs `make_new_filename`: split the filename at its first dot,
replace `old` by `new` in the part before it, lowercase the part from the
dot onward; with no dot, only the replacement applies. -/
def make_new_filename (file_name old new : String) : String :=
  let cs := file_name.toList
  if '.' ∈ cs then
    (replaceAll old.toList new.toList (cs.takeWhile (fun c => c ≠ '.'))).asString
      ++ ((cs.dropWhile (fun c => c ≠ '.')).map Char.toLower).asString
  else
    replaceStr file_name old new

/-- src/paths.rs `CommonPrefix`. -/
structure CommonPrefix where
  pre : FPath
  suffix1 : FPath
  suffix2 : FPath
  deriving Repr, DecidableEq

/-- src/paths.rs `common_prefix`: walk both component sequences while the
heads agree; the walked part is the shared prefix, the rests the suffixes.
(The Rust field `prefix` is called `pre` here.) -/
def commonPrefixOf : FPath → FPath → CommonPrefix
  | x :: xs, y :: ys =>
    if x = y then
      let c := commonPrefixOf xs ys
      ⟨x :: c.pre, c.suffix1, c.suffix2⟩
    else ⟨[], x :: xs, y :: ys⟩
  | a, b => ⟨[], a, b⟩

/-- src/grouping.rs `GroupByFn::next`, iterated to the full group sequence.
Each group is the current first element together with the following run of
elements `y` with `compare y first = true`; the group after it starts at
the first element failing that test.  The fuel argument bounds the
recursion by the input length (each step consumes at least the head; the
zero-fuel fallback is unreachable from `groupByFn`). -/
def groupByFnAux (compare : α → α → Bool) : Nat → List α → List (List α)
  | _, [] => []
  | 0, l => [l]
  | fuel+1, x :: xs =>
    (x :: xs.takeWhile (fun y => compare y x)) ::
      groupByFnAux compare fuel (xs.dropWhile (fun y => compare y x))

/-- src/grouping.rs `group_by_fn`: the sequence of groups the iterator yields. -/
def groupByFn (compare : α → α → Bool) (data : List α) : List (List α) :=
  groupByFnAux compare data.length data

/-- src/photo.rs `File`: a classified file; `derived_from = none` means the
file is a source. -/
structure File where
  path : FPath
  derived_from : Option FPath
  deriving Repr, DecidableEq

/-- src/photo.rs `Photo`: one source file with its derived files. -/
structure Photo where
  source : FPath
  derived : List FPath
  deriving Repr, DecidableEq

/-- src/main.rs `Cmd`: a planned filesystem command. -/
inductive Cmd where
  | CreateDirectory (p : FPath)
  | Rename (src dst : FPath)
  | AdjustRef (file referenced_image : FPath)
  deriving Repr, DecidableEq

/-- A calendar date (chrono `Date<UTC>`). -/
structure Date where
  y : Nat
  m : Nat
  d : Nat
  deriving Repr, DecidableEq

/-- A chrono `DateTime<UTC>`: calendar date plus second of day. -/
structure Timestamp where
  date : Date
  tod : Nat
  deriving Repr, DecidableEq

/-- src/main.rs `AnnotatedPhoto` (its `RawMeta.datetime_original` inlined). -/
structure AnnotatedPhoto where
  photo : Photo
  meta : Option Timestamp
  deriving Repr, DecidableEq

/-- The failures of the planner: `noBasename` models the
`file has no basename` error, `pathNotUtf8` the `ErrorKind::PathNotUtf8`
error (never produced here, every modelled path is text), `needFilename`
the `.expect("need filename")` panic. -/
inductive PlanErr where
  | noBasename (p : FPath)
  | pathNotUtf8 (p : FPath)
  | needFilename
  deriving Repr, DecidableEq

/-- Three-way comparison from a linear order. -/
def linCmp {α : Type _} [LinearOrder α] (a b : α) : Ordering :=
  if a < b then .lt else if b < a then .gt else .eq

/-- Three-way comparison of naturals (mirrors `Ord` on integers). -/
def natCmp : Nat → Nat → Ordering := linCmp

/-- Three-way comparison of characters by code point (Rust compares strings
by UTF-8 bytes, which orders code points identically). -/
def charCmp : Char → Char → Ordering := linCmp

/-- Lexicographic comparison of lists from an element comparison. -/
def listCmp (c : α → α → Ordering) : List α → List α → Ordering
  | [], [] => .eq
  | [], _ :: _ => .lt
  | _ :: _, [] => .gt
  | x :: xs, y :: ys =>
    match c x y with
    | .eq => listCmp c xs ys
    | o => o

/-- Rust `str` comparison. -/
def strCmp (a b : String) : Ordering := listCmp charCmp a.toList b.toList

/-- Rust `Path::cmp`: lexicographic over components. -/
def pathCmp (a b : FPath) : Ordering := listCmp strCmp a b

/-- The sort key of a timestamp: chronological order on valid values is
lexicographic on this tuple. -/
def tsKey (t : Timestamp) : List Nat := [t.date.y, t.date.m, t.date.d, t.tod]

/-- chrono `DateTime::cmp`. -/
def timeCmp (a b : Timestamp) : Ordering := listCmp natCmp (tsKey a) (tsKey b)

/-- The comparator `group_photo_files_impl` sorts by: `a.source.cmp(&b.source)`. -/
def photoCmp (a b : Photo) : Ordering := pathCmp a.source b.source

/-- The comparator src/main.rs `group_files_by_date` sorts by: timestamps
compare naturally, an absent timestamp sorts below a present one. -/
def dateCmp (a b : AnnotatedPhoto) : Ordering :=
  match a.meta, b.meta with
  | some d1, some d2 => timeCmp d1 d2
  | some _, none => .gt
  | none, some _ => .lt
  | none, none => .eq

/-- The grouping predicate of src/main.rs `group_files_by_date`: equal
calendar dates; two absent dates agree; an absent and a present date never do. -/
def sameDateB (a b : AnnotatedPhoto) : Bool :=
  match a.meta, b.meta with
  | some d1, some d2 => d1.date = d2.date
  | some _, none => false
  | none, some _ => false
  | none, none => true

/-- Stable insertion into a sorted list: the new element goes in front of
the first element it is not greater than. -/
def insertByCmp (cmp : α → α → Ordering) (x : α) : List α → List α
  | [] => [x]
  | y :: ys => if cmp x y = .gt then y :: insertByCmp cmp x ys else x :: y :: ys

/-- Rust `sort_by`: a stable sort by a three-way comparator (insertion
sort; for a comparator that is a total preorder this produces the same
sequence as any stable sort). -/
def sortByCmp (cmp : α → α → Ordering) : List α → List α
  | [] => []
  | x :: xs => insertByCmp cmp x (sortByCmp cmp xs)

/-- Concatenation of a list of lists. -/
def cat : List (List α) → List α
  | [] => []
  | x :: xs => x ++ cat xs

/-- `HashMap::insert`: overwrite the value under an existing key, else add
the binding (the list position of a binding is one fixed enumeration
order; see `group_photo_files_spec_enum` for order-independence). -/
def hmInsert (m : List (FPath × Photo)) (k : FPath) (v : Photo) : List (FPath × Photo) :=
  if m.any (fun e => e.1 = k) then
    m.map (fun e => if e.1 = k then (e.1, v) else e)
  else m ++ [(k, v)]

/-- `HashMap::get_mut` followed by `Photo::add_derived`: append `p` to the
derived list stored under key `k`. -/
def hmAdjust (m : List (FPath × Photo)) (k : FPath) (p : FPath) : List (FPath × Photo) :=
  m.map (fun e => if e.1 = k then (e.1, ⟨e.2.source, e.2.derived ++ [p]⟩) else e)

/-- The keys of the map. -/
def keysOf (m : List (FPath × Photo)) : List FPath := m.map (fun e => e.1)

/-- `HashMap::values` (in the canonical enumeration order). -/
def valuesOf (m : List (FPath × Photo)) : List Photo := m.map (fun e => e.2)

/-- Pass 1 of src/photo.rs `group_photo_files_impl`: insert a fresh
`Photo` for every source file. -/
def pass1 (m : List (FPath × Photo)) : List File → List (FPath × Photo)
  | [] => m
  | f :: fs =>
    if f.derived_from = none then pass1 (hmInsert m f.path ⟨f.path, []⟩) fs
    else pass1 m fs

/-- Pass 2 of src/photo.rs `group_photo_files_impl`: append every derived
file to the photo of the source it references; a reference to a path that
is no key is the `.expect` panic, modelled as `none`. -/
def pass2 (m : List (FPath × Photo)) : List File → Option (List (FPath × Photo))
  | [] => some m
  | f :: fs =>
    match f.derived_from with
    | none => pass2 m fs
    | some s =>
      if m.any (fun e => e.1 = s) then pass2 (hmAdjust m s f.path) fs
      else none

/-- The finished index of src/photo.rs `group_photo_files_impl` (`none`
when the `.expect` panics). -/
def buildMap (files : List File) : Option (List (FPath × Photo)) :=
  pass2 (pass1 [] files) files

/-- src/photo.rs `group_photo_files_impl`: build the index in two passes,
then sort its values by source path (`none` models the `.expect` panic on
a derived file whose source path is not indexed). -/
def group_photo_files_impl (files : List File) : Option (List Photo) :=
  (buildMap files).map (fun m => sortByCmp photoCmp (valuesOf m))

/-- The command list for the derived files of one photo: for each derived
file in order, `Rename` to its new location then `AdjustRef` to the
renamed source (src/main.rs `create_move_commands`, loop body); a derived
path with no filename component is the `.expect("need filename")` panic. -/
def derivedCmds (source_stem new_stem : String) (out_dir new_source_file : FPath) :
    List FPath → Except PlanErr (List Cmd)
  | [] => .ok []
  | d :: rest =>
    match fileName d with
    | none => .error .needFilename
    | some derived_file_name =>
      let new_derived_file := pathJoin out_dir (make_new_filename derived_file_name source_stem new_stem)
      match derivedCmds source_stem new_stem out_dir new_source_file rest with
      | .error e => .error e
      | .ok cs => .ok (Cmd.Rename d new_derived_file :: Cmd.AdjustRef new_derived_file new_source_file :: cs)

/-- src/main.rs `create_move_commands`: rename the source to
`out_dir/make_new_filename(sourceName, sourceStem, newStem)`, then emit
the derived-file commands. -/
def create_move_commands (photo : Photo) (new_stem : String) (out_dir : FPath) :
    Except PlanErr (List Cmd) :=
  match fileStem photo.source with
  | none => .error (.noBasename photo.source)
  | some source_stem =>
    match fileName photo.source with
    | none => .error .needFilename
    | some source_file_name =>
      let new_source_file := pathJoin out_dir (make_new_filename source_file_name source_stem new_stem)
      match derivedCmds source_stem new_stem out_dir new_source_file photo.derived with
      | .error e => .error e
      | .ok cs => .ok (Cmd.Rename photo.source new_source_file :: cs)

/-- Zero-padded decimal, Rust `format!` with width `w` (`{:04}` is `natPad 4`). -/
def natPad (w n : Nat) : String :=
  let s := toString n
  if s.length < w then ((List.replicate (w - s.length) '0').asString) ++ s else s

/-- chrono `%Y-%m-%d` on a date. -/
def fmtDate (d : Date) : String :=
  natPad 4 d.y ++ "-" ++ natPad 2 d.m ++ "-" ++ natPad 2 d.d

/-- The group name src/main.rs `group_files_by_date` derives from a
group's first element: the formatted date, or "no-date" with no timestamp
(the empty-group case is unreachable, `groupByFn` yields nonempty groups). -/
def groupNameOf (g : List AnnotatedPhoto) : String :=
  match g with
  | [] => "no-date"
  | x :: _ =>
    match x.meta with
    | some t => fmtDate t.date
    | none => "no-date"

/-- The inner loop of src/main.rs `group_files_by_date`: plan each photo of
a group with stem `{i:04}_{name}`, `i` counting from the given index. -/
def planPhotos (dir : FPath) (name : String) : Nat → List AnnotatedPhoto → Except PlanErr (List Cmd)
  | _, [] => .ok []
  | i, f :: fs =>
    match create_move_commands f.photo (natPad 4 i ++ "_" ++ name) dir with
    | .error e => .error e
    | .ok c =>
      match planPhotos dir name (i + 1) fs with
      | .error e => .error e
      | .ok rest => .ok (c ++ rest)

/-- One group of src/main.rs `group_files_by_date`: `CreateDirectory` of
`out_dir/groupName` followed by the photo commands, indices from 0. -/
def planGroup (out_dir : FPath) (g : List AnnotatedPhoto) : Except PlanErr (List Cmd) :=
  let name := groupNameOf g
  match planPhotos (pathJoin out_dir name) name 0 g with
  | .error e => .error e
  | .ok cs => .ok (Cmd.CreateDirectory (pathJoin out_dir name) :: cs)

/-- All groups of src/main.rs `group_files_by_date`, concatenated in order. -/
def planGroups (out_dir : FPath) : List (List AnnotatedPhoto) → Except PlanErr (List Cmd)
  | [] => .ok []
  | g :: gs =>
    match planGroup out_dir g with
    | .error e => .error e
    | .ok c =>
      match planGroups out_dir gs with
      | .error e => .error e
      | .ok rest => .ok (c ++ rest)

/-- src/main.rs `date_photo_files`: annotate each photo with the capture
timestamp of its source (the metadata reader is the supplied function). -/
def date_photo_files (dates : FPath → Option Timestamp) (photos : List Photo) : List AnnotatedPhoto :=
  photos.map (fun p => ⟨p, dates p.source⟩)

/-- The planning pipeline of src/main.rs `group_files_by_date` from the
grouped photos on: annotate with dates, stable-sort by `dateCmp`, group
consecutively by `sameDateB`, and plan each group. -/
def group_files_by_date_plan (dates : FPath → Option Timestamp) (photos : List Photo)
    (out_dir : FPath) : Except PlanErr (List Cmd) :=
  planGroups out_dir (groupByFn sameDateB (sortByCmp dateCmp (date_photo_files dates photos)))

/-- String append acts as list append on the character data. -/
theorem toList_append (s t : String) : (s ++ t).toList = s.toList ++ t.toList :=
  String.data_append s t

/-- `takeWhile` and `dropWhile` split a list at its first element failing
the predicate. -/
theorem takeWhile_middle (p : α → Bool) (l r : List α) (x : α)
    (hl : ∀ c ∈ l, p c = true) (hx : p x = false) :
    (l ++ x :: r).takeWhile p = l ∧ (l ++ x :: r).dropWhile p = x :: r := by
  induction l with
  | nil => simp [List.takeWhile_cons, List.dropWhile_cons, hx]
  | cons c cs ih =>
    have hc : p c = true := hl c (by simp)
    have ih' := ih (fun d hd => hl d (by simp [hd]))
    simp [List.takeWhile_cons, List.dropWhile_cons, hc, ih'.1, ih'.2]

/-- Dropping a prefix never lengthens a list. -/
theorem length_dropWhile_le (p : α → Bool) (l : List α) :
    (l.dropWhile p).length ≤ l.length := by
  induction l with
  | nil => simp
  | cons x xs ih =>
    by_cases h : p x
    · simp only [List.dropWhile_cons, h, if_true, List.length_cons]
      omega
    · simp [List.dropWhile_cons, h]

/-- The head of a `dropWhile` result fails the predicate. -/
theorem dropWhile_head_false (p : α → Bool) :
    ∀ (l : List α) (y : α) (ys : List α), l.dropWhile p = y :: ys → p y = false := by
  intro l
  induction l with
  | nil => intro y ys h; simp at h
  | cons x xs ih =>
    intro y ys h
    rw [List.dropWhile_cons] at h
    by_cases hx : p x
    · exact ih y ys (by simpa [hx] using h)
    · simp [hx] at h
      simp [← h.1, hx]

/-- C4: `make_new_filename` splits at the first dot: on a name
`s ++ "." ++ t` whose part `s` carries no dot it replaces `old` by `new`
inside `s` and lowercases `"." ++ t`; a name without a dot gets only the
replacement; the three documented examples evaluate as specified. -/
theorem c4_make_new_filename_spec (s t old new : String) (h : '.' ∉ s.toList) :
    make_new_filename (s ++ "." ++ t) old new
      = replaceStr s old new ++ lowerStr ("." ++ t) ∧
    make_new_filename s old new = replaceStr s old new ∧
    make_new_filename "my_file.JPG" "my_file" "0000" = "0000.jpg" ∧
    make_new_filename "my_file.CR2.JPG" "my_file" "0000" = "0000.cr2.jpg" ∧
    make_new_filename "my_file" "my_file" "0000" = "0000" := by
  have hdata : (s ++ "." ++ t).toList = s.toList ++ '.' :: t.toList := by
    rw [toList_append, toList_append, List.append_assoc]
    rfl
  have hsplit := takeWhile_middle (fun c => decide (c ≠ '.')) s.toList t.toList '.'
    (fun c hc => by
      simp only [decide_eq_true_eq]
      intro he
      exact h (he ▸ hc)) (by simp)
  refine ⟨?_, ?_, by decide, by decide, by decide⟩
  · rw [make_new_filename, hdata]
    have hmem : ('.' : Char) ∈ s.toList ++ '.' :: t.toList := by simp
    rw [if_pos hmem, hsplit.1, hsplit.2]
    rfl
  · rw [make_new_filename]
    rw [if_neg h]

/-- C4 witness: the split equations instantiated at a concrete filename. -/
theorem c4_make_new_filename_witness :
    make_new_filename ("abc" ++ "." ++ "XY") "abc" "z"
      = replaceStr "abc" "abc" "z" ++ lowerStr ("." ++ "XY") ∧
    make_new_filename "abc" "abc" "z" = replaceStr "abc" "abc" "z" ∧
    make_new_filename "my_file.JPG" "my_file" "0000" = "0000.jpg" ∧
    make_new_filename "my_file.CR2.JPG" "my_file" "0000" = "0000.cr2.jpg" ∧
    make_new_filename "my_file" "my_file" "0000" = "0000" :=
  c4_make_new_filename_spec "abc" "XY" "abc" "z" (by decide)

/-- C6: `common_prefix` decomposes its two inputs: the prefix followed by
the respective suffix reproduces each path, and the suffixes never start
with the same component. -/
theorem c6_common_prefix_spec (a b : FPath) :
    (commonPrefixOf a b).pre ++ (commonPrefixOf a b).suffix1 = a ∧
    (commonPrefixOf a b).pre ++ (commonPrefixOf a b).suffix2 = b ∧
    (∀ x y, (commonPrefixOf a b).suffix1.head? = some x →
      (commonPrefixOf a b).suffix2.head? = some y → x ≠ y) := by
  induction a generalizing b with
  | nil =>
    cases b with
    | nil => simp [commonPrefixOf]
    | cons y ys => simp [commonPrefixOf]
  | cons x xs ih =>
    cases b with
    | nil => simp [commonPrefixOf]
    | cons y ys =>
      by_cases hxy : x = y
      · subst hxy
        have h := ih ys
        simp only [commonPrefixOf, if_pos rfl]
        exact ⟨by simp [h.1], by simp [h.2.1], h.2.2⟩
      · simp only [commonPrefixOf, if_neg hxy]
        refine ⟨rfl, rfl, ?_⟩
        intro u v hu hv
        simp only [List.head?_cons, Option.some.injEq] at hu hv
        rw [← hu, ← hv]
        exact hxy

/-- Concatenating the groups of `groupByFnAux` restores the input. -/
theorem groupByFnAux_cat (cmp : α → α → Bool) :
    ∀ (fuel : Nat) (l : List α), l.length ≤ fuel →
      cat (groupByFnAux cmp fuel l) = l := by
  intro fuel
  induction fuel with
  | zero =>
    intro l h
    cases l with
    | nil => simp [groupByFnAux, cat]
    | cons x xs => simp at h
  | succ n ih =>
    intro l h
    cases l with
    | nil => simp [groupByFnAux, cat]
    | cons x xs =>
      rw [groupByFnAux, cat]
      have hlen : ((xs.dropWhile fun y => cmp y x).length) ≤ n := by
        have := length_dropWhile_le (fun y => cmp y x) xs
        simp at h
        omega
      rw [ih _ hlen]
      simp [List.takeWhile_append_dropWhile]

/-- Every group `groupByFnAux` yields is nonempty and its later elements
all satisfy the predicate against its first element. -/
theorem groupByFnAux_groups (cmp : α → α → Bool) :
    ∀ (fuel : Nat) (l : List α), l.length ≤ fuel →
      ∀ g ∈ groupByFnAux cmp fuel l, ∃ x t, g = x :: t ∧ ∀ y ∈ t, cmp y x = true := by
  intro fuel
  induction fuel with
  | zero =>
    intro l h g hg
    cases l with
    | nil => simp [groupByFnAux] at hg
    | cons x xs => simp at h
  | succ n ih =>
    intro l h g hg
    cases l with
    | nil => simp [groupByFnAux] at hg
    | cons x xs =>
      rw [groupByFnAux] at hg
      rcases List.mem_cons.mp hg with hg | hg
      · refine ⟨x, _, hg, fun y hy => ?_⟩
        have hp := List.mem_takeWhile_imp hy
        simpa using hp
      · have hlen : ((xs.dropWhile fun y => cmp y x).length) ≤ n := by
          have := length_dropWhile_le (fun y => cmp y x) xs
          simp at h
          omega
        exact ih _ hlen g hg

/-- Between two consecutive groups of `groupByFnAux`, the first element of
the later group fails the predicate against the first element of the
earlier one. -/
theorem groupByFnAux_chain (cmp : α → α → Bool) :
    ∀ (fuel : Nat) (l : List α), l.length ≤ fuel →
      List.Chain' (fun g g' => ∀ x y, g.head? = some x → g'.head? = some y → cmp y x = false)
        (groupByFnAux cmp fuel l) := by
  intro fuel
  induction fuel with
  | zero =>
    intro l h
    cases l with
    | nil => simp [groupByFnAux]
    | cons x xs => simp at h
  | succ n ih =>
    intro l h
    cases l with
    | nil => simp [groupByFnAux]
    | cons x xs =>
      rw [groupByFnAux]
      have hlen : ((xs.dropWhile fun y => cmp y x).length) ≤ n := by
        have := length_dropWhile_le (fun y => cmp y x) xs
        simp at h
        omega
      rw [List.chain'_cons']
      refine ⟨?_, ih _ hlen⟩
      intro g' hg' u v hu hv
      cases hd : xs.dropWhile fun y => cmp y x with
      | nil =>
        rw [hd] at hg'
        have hnil : groupByFnAux cmp n ([] : List α) = [] := by cases n <;> rfl
        rw [hnil] at hg'
        simp at hg'
      | cons z zs =>
        rw [hd] at hg'
        cases n with
        | zero =>
          have h0 : (z :: zs).length ≤ 0 := hd ▸ hlen
          simp at h0
        | succ m =>
          rw [groupByFnAux] at hg'
          have hg2 : g' = z :: zs.takeWhile (fun y => cmp y z) := by
            have := hg'
            simp at this
            exact this.symm
          rw [hg2] at hv
          simp only [List.head?_cons, Option.some.injEq] at hu hv
          rw [← hu, ← hv]
          exact dropWhile_head_false _ xs z zs hd

/-- C7: `group_by_fn` yields no group on an empty input; in general its
groups concatenate back to the input, each group is nonempty with every
later element related to the group's first element by the predicate, and
the first element of each following group fails the predicate against the
previous group's first element. -/
theorem c7_group_by_fn_spec (cmp : α → α → Bool) (l : List α) :
    groupByFn cmp ([] : List α) = [] ∧
    cat (groupByFn cmp l) = l ∧
    (∀ g ∈ groupByFn cmp l, ∃ x t, g = x :: t ∧ ∀ y ∈ t, cmp y x = true) ∧
    List.Chain' (fun g g' => ∀ x y, g.head? = some x → g'.head? = some y → cmp y x = false)
      (groupByFn cmp l) :=
  ⟨rfl, groupByFnAux_cat cmp l.length l le_rfl,
    groupByFnAux_groups cmp l.length l le_rfl,
    groupByFnAux_chain cmp l.length l le_rfl⟩

/-- The non-strict order a three-way comparator induces. -/
def leOfCmp (cmp : α → α → Ordering) (a b : α) : Prop := cmp a b ≠ .gt

/-- The strict order a three-way comparator induces. -/
def ltOfCmp (cmp : α → α → Ordering) (a b : α) : Prop := cmp a b = .lt

/-- A comparator realizing a linear order on its type. -/
structure IsLawfulCmp (c : α → α → Ordering) : Prop where
  eq_iff : ∀ a b, c a b = .eq ↔ a = b
  swap_eq : ∀ a b, c b a = (c a b).swap
  lt_trans : ∀ a b d, c a b = .lt → c b d = .lt → c a d = .lt

/-- A comparator from a linear order is lawful. -/
theorem linCmp_lawful {α : Type _} [LinearOrder α] :
    IsLawfulCmp (linCmp : α → α → Ordering) := by
  constructor
  · intro a b
    unfold linCmp
    split_ifs with h1 h2
    · simp
      exact fun he => absurd h1 (by simp [he])
    · simp
      exact fun he => absurd h2 (by simp [he])
    · simp
      exact le_antisymm (not_lt.mp h2) (not_lt.mp h1)
  · intro a b
    unfold linCmp
    rcases lt_trichotomy a b with h | h | h
    · simp [h, not_lt.mpr h.le, Ordering.swap]
    · simp [h, lt_irrefl, Ordering.swap]
    · simp [h, not_lt.mpr h.le, Ordering.swap]
  · intro a b d h1 h2
    unfold linCmp at h1 h2 ⊢
    have hab : a < b := by
      by_cases hx : a < b
      · exact hx
      · exfalso
        rw [if_neg hx] at h1
        split_ifs at h1
    have hbd : b < d := by
      by_cases hx : b < d
      · exact hx
      · exfalso
        rw [if_neg hx] at h2
        split_ifs at h2
    rw [if_pos (lt_trans hab hbd)]

/-- `natCmp` is lawful. -/
theorem natCmp_lawful : IsLawfulCmp natCmp := linCmp_lawful

/-- `charCmp` is lawful. -/
theorem charCmp_lawful : IsLawfulCmp charCmp := linCmp_lawful

/-- Lexicographic lifting preserves lawfulness. -/
theorem listCmp_lawful {c : α → α → Ordering} (hc : IsLawfulCmp c) :
    IsLawfulCmp (listCmp c) := by
  constructor
  · intro a
    induction a with
    | nil => intro b; cases b <;> simp [listCmp]
    | cons x xs ih =>
      intro b
      cases b with
      | nil => simp [listCmp]
      | cons y ys =>
        simp only [listCmp]
        cases hxy : c x y with
        | eq =>
          have : x = y := (hc.eq_iff x y).mp hxy
          simp [this, ih ys]
        | lt => simp [hxy ▸ (hc.eq_iff x y)] at hxy ⊢; intro he; simp [he] at hxy; exact absurd ((hc.eq_iff y y).mpr rfl) (by simp [hxy])
        | gt => simp; intro he hl; rw [he] at hxy; exact absurd ((hc.eq_iff y y).mpr rfl) (by simp [hxy])
  · intro a
    induction a with
    | nil => intro b; cases b <;> simp [listCmp, Ordering.swap]
    | cons x xs ih =>
      intro b
      cases b with
      | nil => simp [listCmp, Ordering.swap]
      | cons y ys =>
        simp only [listCmp, hc.swap_eq x y]
        cases c x y <;> simp [Ordering.swap, ih ys]
  · intro a
    induction a with
    | nil =>
      intro b d h1 h2
      cases b with
      | nil => exact h2
      | cons y ys =>
        cases d with
        | nil => simp [listCmp] at h2
        | cons z zs => simp [listCmp]
    | cons x xs ih =>
      intro b d h1 h2
      cases b with
      | nil => simp [listCmp] at h1
      | cons y ys =>
        cases d with
        | nil => simp [listCmp] at h2
        | cons z zs =>
          simp only [listCmp] at h1 h2 ⊢
          cases hxy : c x y with
          | gt => simp [hxy] at h1
          | lt =>
            have hyz : c y z = .lt ∨ y = z := by
              cases hyz : c y z with
              | lt => exact Or.inl rfl
              | eq => exact Or.inr ((hc.eq_iff y z).mp hyz)
              | gt => rw [hyz] at h2; simp at h2
            rcases hyz with hyz | hyz
            · simp [hc.lt_trans x y z hxy hyz]
            · rw [← hyz]
              simp [hxy]
          | eq =>
            have hxy' : x = y := (hc.eq_iff x y).mp hxy
            subst hxy'
            rw [hxy] at h1
            cases hxz : c x z with
            | lt => simp
            | eq => rw [hxz] at h2; exact ih ys zs h1 h2
            | gt => rw [hxz] at h2; simp at h2

/-- A lawful comparator flips under argument swap, so `le` follows from
the other side not being less. -/
theorem lawful_le_of_not_lt {c : α → α → Ordering} (hc : IsLawfulCmp c) (a b : α)
    (h : c b a ≠ .lt) : leOfCmp c a b := by
  intro hgt
  rw [hc.swap_eq a b, hgt] at h
  exact h rfl

/-- Transitivity of the non-strict order of a lawful comparator. -/
theorem lawful_le_trans {c : α → α → Ordering} (hc : IsLawfulCmp c) :
    ∀ a b d, leOfCmp c a b → leOfCmp c b d → leOfCmp c a d := by
  intro a b d h1 h2
  cases h1' : c a b with
  | gt => exact absurd h1' h1
  | eq =>
    have : a = b := (hc.eq_iff a b).mp h1'
    rw [this]
    exact h2
  | lt =>
    cases h2' : c b d with
    | gt => exact absurd h2' h2
    | eq =>
      have : b = d := (hc.eq_iff b d).mp h2'
      rw [← this]
      exact h1
    | lt => simp [leOfCmp, hc.lt_trans a b d h1' h2']

/-- `strCmp` is lawful (strings are injectively their character data). -/
theorem strCmp_lawful : IsLawfulCmp strCmp := by
  have hl := listCmp_lawful charCmp_lawful
  constructor
  · intro a b
    rw [strCmp, hl.eq_iff]
    constructor
    · exact fun h => String.ext h
    · intro h
      rw [h]
  · intro a b
    exact hl.swap_eq a.toList b.toList
  · intro a b d h1 h2
    exact hl.lt_trans a.toList b.toList d.toList h1 h2

/-- `pathCmp` is lawful. -/
theorem pathCmp_lawful : IsLawfulCmp pathCmp := listCmp_lawful strCmp_lawful

/-- The timestamp key determines the timestamp. -/
theorem tsKey_inj (a b : Timestamp) (h : tsKey a = tsKey b) : a = b := by
  cases a with
  | mk da ta =>
    cases b with
    | mk db tb =>
      cases da
      cases db
      simp [tsKey] at h
      simp [h.1, h.2.1, h.2.2.1, h.2.2.2]

/-- `timeCmp` is lawful. -/
theorem timeCmp_lawful : IsLawfulCmp timeCmp := by
  have hl := listCmp_lawful natCmp_lawful
  constructor
  · intro a b
    rw [timeCmp, hl.eq_iff]
    constructor
    · exact tsKey_inj a b
    · intro h
      rw [h]
  · intro a b
    exact hl.swap_eq (tsKey a) (tsKey b)
  · intro a b d h1 h2
    exact hl.lt_trans (tsKey a) (tsKey b) (tsKey d) h1 h2

/-- `photoCmp` flips under argument swap. -/
theorem photoCmp_swap (a b : Photo) : photoCmp b a = (photoCmp a b).swap :=
  pathCmp_lawful.swap_eq a.source b.source

/-- The non-strict order of `photoCmp` is transitive. -/
theorem photoCmp_le_trans :
    ∀ a b d, leOfCmp photoCmp a b → leOfCmp photoCmp b d → leOfCmp photoCmp a d :=
  fun a b d h1 h2 => lawful_le_trans pathCmp_lawful a.source b.source d.source h1 h2

/-- `dateCmp` flips under argument swap. -/
theorem dateCmp_swap (a b : AnnotatedPhoto) : dateCmp b a = (dateCmp a b).swap := by
  cases ha : a.meta with
  | none =>
    cases hb : b.meta with
    | none => simp [dateCmp, ha, hb, Ordering.swap]
    | some tb => simp [dateCmp, ha, hb, Ordering.swap]
  | some ta =>
    cases hb : b.meta with
    | none => simp [dateCmp, ha, hb, Ordering.swap]
    | some tb =>
      simp only [dateCmp, ha, hb]
      exact timeCmp_lawful.swap_eq ta tb

/-- The non-strict order of `dateCmp` is transitive. -/
theorem dateCmp_le_trans :
    ∀ a b d, leOfCmp dateCmp a b → leOfCmp dateCmp b d → leOfCmp dateCmp a d := by
  intro a b d h1 h2
  cases ha : a.meta with
  | none =>
    cases hd : d.meta <;> simp [leOfCmp, dateCmp, ha, hd]
  | some ta =>
    cases hb : b.meta with
    | none => simp [leOfCmp, dateCmp, ha, hb] at h1
    | some tb =>
      cases hd : d.meta with
      | none => simp [leOfCmp, dateCmp, hb, hd] at h2
      | some td =>
        simp only [leOfCmp, dateCmp, ha, hb] at h1
        simp only [leOfCmp, dateCmp, hb, hd] at h2
        simp only [leOfCmp, dateCmp, ha, hd]
        exact lawful_le_trans timeCmp_lawful ta tb td h1 h2

/-- Inserting keeps the same elements, as a permutation. -/
theorem insertByCmp_perm (cmp : α → α → Ordering) (x : α) (l : List α) :
    (insertByCmp cmp x l).Perm (x :: l) := by
  induction l with
  | nil => simp [insertByCmp]
  | cons y ys ih =>
    rw [insertByCmp]
    by_cases h : cmp x y = .gt
    · rw [if_pos h]
      exact (ih.cons y).trans (List.Perm.swap x y ys)
    · rw [if_neg h]

/-- Sorting keeps the same elements, as a permutation. -/
theorem sortByCmp_perm (cmp : α → α → Ordering) (l : List α) :
    (sortByCmp cmp l).Perm l := by
  induction l with
  | nil => simp [sortByCmp]
  | cons x xs ih =>
    rw [sortByCmp]
    exact ((insertByCmp_perm cmp x (sortByCmp cmp xs)).trans (ih.cons x))

/-- Membership after insertion. -/
theorem insertByCmp_mem (cmp : α → α → Ordering) (x : α) (l : List α) (z : α)
    (h : z ∈ insertByCmp cmp x l) : z = x ∨ z ∈ l := by
  have := (insertByCmp_perm cmp x l).mem_iff.mp h
  simpa using this

/-- Insertion into a sorted list stays sorted, for a comparator that flips
under swap and has a transitive induced order. -/
theorem insertByCmp_sorted {cmp : α → α → Ordering}
    (hswap : ∀ a b, cmp b a = (cmp a b).swap)
    (htrans : ∀ a b d, leOfCmp cmp a b → leOfCmp cmp b d → leOfCmp cmp a d)
    (x : α) (l : List α) (hl : List.Sorted (leOfCmp cmp) l) :
    List.Sorted (leOfCmp cmp) (insertByCmp cmp x l) := by
  induction l with
  | nil => simp [insertByCmp]
  | cons y ys ih =>
    rw [List.sorted_cons] at hl
    rw [insertByCmp]
    by_cases h : cmp x y = .gt
    · rw [if_pos h]
      rw [List.sorted_cons]
      constructor
      · intro b hb
        rcases insertByCmp_mem cmp x ys b hb with hb | hb
        · rw [hb]
          simp only [leOfCmp, hswap x y, h]
          decide
        · exact hl.1 b hb
      · exact ih hl.2
    · rw [if_neg h]
      rw [List.sorted_cons]
      constructor
      · intro b hb
        rcases List.mem_cons.mp hb with hb | hb
        · rw [hb]
          exact h
        · exact htrans x y b h (hl.1 b hb)
      · rw [List.sorted_cons]
        exact hl

/-- Sorting sorts, for a comparator that flips under swap and has a
transitive induced order. -/
theorem sortByCmp_sorted {cmp : α → α → Ordering}
    (hswap : ∀ a b, cmp b a = (cmp a b).swap)
    (htrans : ∀ a b d, leOfCmp cmp a b → leOfCmp cmp b d → leOfCmp cmp a d)
    (l : List α) : List.Sorted (leOfCmp cmp) (sortByCmp cmp l) := by
  induction l with
  | nil => simp [sortByCmp]
  | cons x xs ih =>
    rw [sortByCmp]
    exact insertByCmp_sorted hswap htrans x (sortByCmp cmp xs) ih

/-- When every derived path has a filename, the derived-file commands are
the concatenation, in order, of a `Rename` and an `AdjustRef` pair per
derived file. -/
theorem derivedCmds_ok (source_stem new_stem : String) (out_dir nsf : FPath)
    (ds : List FPath) (hd : ∀ d ∈ ds, (fileName d).isSome) :
    derivedCmds source_stem new_stem out_dir nsf ds = .ok (cat (ds.map (fun d =>
      [Cmd.Rename d (pathJoin out_dir (make_new_filename (fileNameD d) source_stem new_stem)),
       Cmd.AdjustRef (pathJoin out_dir (make_new_filename (fileNameD d) source_stem new_stem)) nsf]))) := by
  induction ds with
  | nil => simp [derivedCmds, cat]
  | cons d rest ih =>
    obtain ⟨dn, hdn⟩ := Option.isSome_iff_exists.mp (hd d (by simp))
    rw [derivedCmds, hdn]
    rw [ih (fun e he => hd e (by simp [he]))]
    simp [cat, fileNameD, hdn]

/-- C2: on a photo whose source and derived paths all have (UTF-8)
filename components, the planner returns exactly: a `Rename` of the source
to `out_dir/make_new_filename(sourceName, sourceStem, newStem)`, then, per
derived file in order, a `Rename` of it to
`out_dir/make_new_filename(derivedName, sourceStem, newStem)` immediately
followed by an `AdjustRef` of that new derived path to the new source
path; `sourceStem` is the original source basename without extension. -/
theorem c2_create_move_commands_spec (photo : Photo) (new_stem : String) (out_dir : FPath)
    (hs : (fileName photo.source).isSome)
    (hd : ∀ d ∈ photo.derived, (fileName d).isSome) :
    create_move_commands photo new_stem out_dir = .ok (
      Cmd.Rename photo.source
        (pathJoin out_dir (make_new_filename (fileNameD photo.source)
          (stemOfFileName (fileNameD photo.source)) new_stem)) ::
      cat (photo.derived.map (fun d =>
        [Cmd.Rename d (pathJoin out_dir (make_new_filename (fileNameD d)
            (stemOfFileName (fileNameD photo.source)) new_stem)),
         Cmd.AdjustRef
           (pathJoin out_dir (make_new_filename (fileNameD d)
             (stemOfFileName (fileNameD photo.source)) new_stem))
           (pathJoin out_dir (make_new_filename (fileNameD photo.source)
             (stemOfFileName (fileNameD photo.source)) new_stem))]))) := by
  obtain ⟨sn, hsn⟩ := Option.isSome_iff_exists.mp hs
  simp only [create_move_commands, fileStem, hsn, Option.map_some']
  rw [derivedCmds_ok (stemOfFileName sn) new_stem out_dir _ photo.derived hd]
  simp [fileNameD, hsn]

/-- C2 witness: the command sequence of the repository's own planner test
case (source `/a/1.CR2`, derived `/a/1.cr2.xmp` and `/a/1.jpg`). -/
theorem c2_create_move_commands_witness :
    create_move_commands ⟨["/", "a", "1.CR2"], [["/", "a", "1.cr2.xmp"], ["/", "a", "1.jpg"]]⟩ "x" ["/", "tmp"] = .ok (
      Cmd.Rename ["/", "a", "1.CR2"]
        (pathJoin ["/", "tmp"] (make_new_filename (fileNameD ["/", "a", "1.CR2"])
          (stemOfFileName (fileNameD ["/", "a", "1.CR2"])) "x")) ::
      cat (([["/", "a", "1.cr2.xmp"], ["/", "a", "1.jpg"]] : List FPath).map (fun d =>
        [Cmd.Rename d (pathJoin ["/", "tmp"] (make_new_filename (fileNameD d)
            (stemOfFileName (fileNameD ["/", "a", "1.CR2"])) "x")),
         Cmd.AdjustRef
           (pathJoin ["/", "tmp"] (make_new_filename (fileNameD d)
             (stemOfFileName (fileNameD ["/", "a", "1.CR2"])) "x"))
           (pathJoin ["/", "tmp"] (make_new_filename (fileNameD ["/", "a", "1.CR2"])
             (stemOfFileName (fileNameD ["/", "a", "1.CR2"])) "x"))]))) :=
  c2_create_move_commands_spec ⟨["/", "a", "1.CR2"], [["/", "a", "1.cr2.xmp"], ["/", "a", "1.jpg"]]⟩
    "x" ["/", "tmp"] (by decide) (by decide)

/-- Every `AdjustRef` among the derived-file commands points at the new
source file, and its own path sits directly inside the output directory. -/
theorem derivedCmds_adjust_mem (source_stem new_stem : String) (out_dir nsf : FPath) :
    ∀ (ds : List FPath) (cs : List Cmd) (f r : FPath),
      derivedCmds source_stem new_stem out_dir nsf ds = .ok cs →
      Cmd.AdjustRef f r ∈ cs → r = nsf ∧ ∃ n, f = pathJoin out_dir n := by
  intro ds
  induction ds with
  | nil =>
    intro cs f r hok hmem
    rw [derivedCmds] at hok
    cases hok
    simp at hmem
  | cons d rest ih =>
    intro cs f r hok hmem
    rw [derivedCmds] at hok
    cases hdn : fileName d with
    | none => rw [hdn] at hok; cases hok
    | some dn =>
      rw [hdn] at hok
      cases hrec : derivedCmds source_stem new_stem out_dir nsf rest with
      | error e => rw [hrec] at hok; cases hok
      | ok cs' =>
        rw [hrec] at hok
        cases hok
        rcases List.mem_cons.mp hmem with hmem | hmem
        · cases hmem
        · rcases List.mem_cons.mp hmem with hmem | hmem
          · cases hmem
            exact ⟨rfl, make_new_filename dn source_stem new_stem, rfl⟩
          · exact ih cs' f r hrec hmem

/-- The common prefix of two sibling files in one directory is that
directory, with the two filenames as one-component suffixes. -/
theorem commonPrefixOf_join (d : FPath) (x y : String) (h : x ≠ y) :
    commonPrefixOf (pathJoin d x) (pathJoin d y) = ⟨d, [x], [y]⟩ := by
  induction d with
  | nil => simp [pathJoin, commonPrefixOf, h]
  | cons c cs ih =>
    simp only [pathJoin, List.cons_append] at ih ⊢
    rw [commonPrefixOf]
    rw [if_pos rfl, ih]

/-- C5 (amended): every `AdjustRef(file, referencedImage)` the planner
emits has both paths directly inside `out_dir`; whenever the two renamed
filenames differ — in particular whenever `file ≠ referencedImage` — the
common prefix of the two paths is `out_dir` itself and both suffixes have
exactly one component.  (If the renamed derived filename collides with
the renamed source filename, both suffixes are empty instead; see the
counterexample.) -/
theorem c5_adjust_ref_colocated (photo : Photo) (new_stem : String) (out_dir : FPath)
    (cmds : List Cmd) (f r : FPath)
    (hok : create_move_commands photo new_stem out_dir = .ok cmds)
    (hmem : Cmd.AdjustRef f r ∈ cmds) :
    (∃ nf, f = pathJoin out_dir nf) ∧ (∃ nr, r = pathJoin out_dir nr) ∧
    (f ≠ r →
      (commonPrefixOf f r).pre = out_dir ∧
      (commonPrefixOf f r).suffix1.length = 1 ∧
      (commonPrefixOf f r).suffix2.length = 1) := by
  rw [create_move_commands] at hok
  cases hst : fileStem photo.source with
  | none => rw [hst] at hok; cases hok
  | some source_stem =>
    rw [hst] at hok
    cases hsn : fileName photo.source with
    | none => rw [hsn] at hok; cases hok
    | some sn =>
      rw [hsn] at hok
      simp only [] at hok
      cases hrec : derivedCmds source_stem new_stem out_dir
          (pathJoin out_dir (make_new_filename sn source_stem new_stem)) photo.derived with
      | error e => rw [hrec] at hok; cases hok
      | ok cs =>
        rw [hrec] at hok
        cases hok
        have hmem' : Cmd.AdjustRef f r ∈ cs := by
          rcases List.mem_cons.mp hmem with hmem | hmem
          · cases hmem
          · exact hmem
        obtain ⟨hr, nf, hf⟩ := derivedCmds_adjust_mem source_stem new_stem out_dir _
          photo.derived cs f r hrec hmem'
        refine ⟨⟨nf, hf⟩, ⟨make_new_filename sn source_stem new_stem, hr⟩, ?_⟩
        intro hne
        have hnames : nf ≠ make_new_filename sn source_stem new_stem := by
          intro he
          exact hne (by rw [hf, hr, he])
        rw [hf, hr, commonPrefixOf_join out_dir _ _ hnames]
        exact ⟨rfl, rfl, rfl⟩

/-- C5 counterexample: a source `1.CR2` with the derived sibling `1.cr2`
(same directory, distinct names on a case-sensitive filesystem) renames
both to `x.cr2`; the emitted `AdjustRef` then relates two equal paths and
both common-prefix suffixes are empty, so the executor's one-component
assertions fail on it. -/
theorem c5_counterexample :
    create_move_commands ⟨["/", "a", "1.CR2"], [["/", "a", "1.cr2"]]⟩ "x" ["/", "tmp"]
      = .ok [Cmd.Rename ["/", "a", "1.CR2"] ["/", "tmp", "x.cr2"],
             Cmd.Rename ["/", "a", "1.cr2"] ["/", "tmp", "x.cr2"],
             Cmd.AdjustRef ["/", "tmp", "x.cr2"] ["/", "tmp", "x.cr2"]] ∧
    (commonPrefixOf ["/", "tmp", "x.cr2"] ["/", "tmp", "x.cr2"]).suffix1.length = 0 ∧
    (commonPrefixOf ["/", "tmp", "x.cr2"] ["/", "tmp", "x.cr2"]).suffix2.length = 0 := by
  refine ⟨?_, by decide, by decide⟩
  rfl

/-- C5 witness: the co-location facts at a concrete emitted `AdjustRef`. -/
theorem c5_adjust_ref_witness :
    (∃ nf, (["/", "tmp", "x.jpg"] : FPath) = pathJoin ["/", "tmp"] nf) ∧
    (∃ nr, (["/", "tmp", "x.cr2"] : FPath) = pathJoin ["/", "tmp"] nr) ∧
    ((["/", "tmp", "x.jpg"] : FPath) ≠ ["/", "tmp", "x.cr2"] →
      (commonPrefixOf ["/", "tmp", "x.jpg"] ["/", "tmp", "x.cr2"]).pre = ["/", "tmp"] ∧
      (commonPrefixOf ["/", "tmp", "x.jpg"] ["/", "tmp", "x.cr2"]).suffix1.length = 1 ∧
      (commonPrefixOf ["/", "tmp", "x.jpg"] ["/", "tmp", "x.cr2"]).suffix2.length = 1) :=
  c5_adjust_ref_colocated ⟨["/", "a", "1.CR2"], [["/", "a", "1.jpg"]]⟩ "x" ["/", "tmp"]
    [Cmd.Rename ["/", "a", "1.CR2"] ["/", "tmp", "x.cr2"],
     Cmd.Rename ["/", "a", "1.jpg"] ["/", "tmp", "x.jpg"],
     Cmd.AdjustRef ["/", "tmp", "x.jpg"] ["/", "tmp", "x.cr2"]]
    ["/", "tmp", "x.jpg"] ["/", "tmp", "x.cr2"] rfl (by decide)

/-- `any` over bindings tests key membership. -/
theorem anyKey_iff (m : List (FPath × Photo)) (s : FPath) :
    m.any (fun e => e.1 = s) = true ↔ s ∈ keysOf m := by
  rw [List.any_eq_true]
  constructor
  · rintro ⟨e, he, hes⟩
    simp only [decide_eq_true_eq] at hes
    rw [keysOf, List.mem_map]
    exact ⟨e, he, hes⟩
  · intro hs
    rw [keysOf, List.mem_map] at hs
    obtain ⟨e, he, hes⟩ := hs
    exact ⟨e, he, by simp [hes]⟩

/-- `hmInsert` adds exactly the inserted key. -/
theorem keysOf_hmInsert (m : List (FPath × Photo)) (k : FPath) (v : Photo) (x : FPath) :
    x ∈ keysOf (hmInsert m k v) ↔ x ∈ keysOf m ∨ x = k := by
  rw [hmInsert]
  by_cases h : m.any (fun e => e.1 = k) = true
  · rw [if_pos h]
    have hk : k ∈ keysOf m := (anyKey_iff m k).mp h
    constructor
    · intro hx
      rw [keysOf, List.mem_map] at hx
      obtain ⟨e, he, hex⟩ := hx
      rw [List.mem_map] at he
      obtain ⟨e0, he0, hfe⟩ := he
      by_cases hek : e0.1 = k
      · right
        rw [if_pos hek] at hfe
        rw [← hex, ← hfe]
        exact hek
      · left
        rw [if_neg hek] at hfe
        rw [keysOf, List.mem_map]
        exact ⟨e0, he0, by rw [hfe, hex]⟩
    · intro hx
      rcases hx with hx | hx
      · rw [keysOf, List.mem_map] at hx ⊢
        obtain ⟨e, he, hex⟩ := hx
        refine ⟨if e.1 = k then (e.1, v) else e, List.mem_map_of_mem _ he, ?_⟩
        by_cases hek : e.1 = k
        · rw [if_pos hek]
          rw [← hex]
        · rw [if_neg hek]
          exact hex
      · rw [hx]
        rw [keysOf, List.mem_map] at hk
        obtain ⟨e, he, hek⟩ := hk
        rw [keysOf, List.mem_map]
        refine ⟨if e.1 = k then (e.1, v) else e, List.mem_map_of_mem _ he, ?_⟩
        rw [if_pos hek]
        exact hek
  · rw [if_neg h]
    have hmap : keysOf (m ++ [(k, v)]) = keysOf m ++ [k] := by
      rw [keysOf, List.map_append]
      rfl
    rw [hmap, List.mem_append, List.mem_singleton]

/-- `hmAdjust` keeps the keys, as a list. -/
theorem keysOf_hmAdjust (m : List (FPath × Photo)) (k p : FPath) :
    keysOf (hmAdjust m k p) = keysOf m := by
  rw [hmAdjust, keysOf, keysOf, List.map_map]
  apply List.map_congr_left
  intro e _
  by_cases hek : e.1 = k
  · simp [hek]
  · simp [hek]

/-- The keys after pass 1 are the old keys plus the source-file paths. -/
theorem pass1_keys :
    ∀ (fs : List File) (m : List (FPath × Photo)) (x : FPath),
      x ∈ keysOf (pass1 m fs) ↔
        x ∈ keysOf m ∨ ∃ f ∈ fs, f.derived_from = none ∧ f.path = x := by
  intro fs
  induction fs with
  | nil => intro m x; simp [pass1]
  | cons f rest ih =>
    intro m x
    rw [pass1]
    by_cases hf : f.derived_from = none
    · rw [if_pos hf, ih, keysOf_hmInsert]
      constructor
      · rintro (⟨hx | hx⟩ | ⟨g, hg, hgs, hgx⟩)
        · exact Or.inl hx
        · exact Or.inr ⟨f, by simp, hf, hx.symm⟩
        · exact Or.inr ⟨g, by simp [hg], hgs, hgx⟩
      · rintro (hx | ⟨g, hg, hgs, hgx⟩)
        · exact Or.inl (Or.inl hx)
        · rcases List.mem_cons.mp hg with hg | hg
          · exact Or.inl (Or.inr (by rw [← hgx, hg]))
          · exact Or.inr ⟨g, hg, hgs, hgx⟩
    · rw [if_neg hf, ih]
      constructor
      · rintro (hx | ⟨g, hg, hgs, hgx⟩)
        · exact Or.inl hx
        · exact Or.inr ⟨g, by simp [hg], hgs, hgx⟩
      · rintro (hx | ⟨g, hg, hgs, hgx⟩)
        · exact Or.inl hx
        · rcases List.mem_cons.mp hg with hg | hg
          · exact absurd (hg ▸ hgs) hf
          · exact Or.inr ⟨g, hg, hgs, hgx⟩

/-- Unfolding pass 2 at a source file. -/
theorem pass2_cons_none (m : List (FPath × Photo)) (g : File) (rest : List File)
    (h : g.derived_from = none) : pass2 m (g :: rest) = pass2 m rest := by
  rw [pass2, h]

/-- Unfolding pass 2 at a derived file. -/
theorem pass2_cons_some (m : List (FPath × Photo)) (g : File) (rest : List File) (s : FPath)
    (h : g.derived_from = some s) :
    pass2 m (g :: rest) =
      if m.any (fun e => e.1 = s) then pass2 (hmAdjust m s g.path) rest else none := by
  rw [pass2, h]

/-- Pass 2 panics when some derived file references a key that is absent
(and stays absent: adjustments never add keys). -/
theorem pass2_missing :
    ∀ (fs : List File) (m : List (FPath × Photo)) (f : File) (s : FPath),
      f ∈ fs → f.derived_from = some s → s ∉ keysOf m →
      pass2 m fs = none := by
  intro fs
  induction fs with
  | nil =>
    intro m f s hmem
    simp at hmem
  | cons g rest ih =>
    intro m f s hmem hfs hkey
    rcases List.mem_cons.mp hmem with hmem | hmem
    · rw [pass2_cons_some m g rest s (by rw [← hmem, hfs])]
      rw [if_neg (fun ha => hkey ((anyKey_iff m s).mp ha))]
    · cases hg : g.derived_from with
      | none =>
        rw [pass2_cons_none m g rest hg]
        exact ih m f s hmem hfs hkey
      | some s' =>
        rw [pass2_cons_some m g rest s' hg]
        by_cases ha : m.any (fun e => e.1 = s') = true
        · rw [if_pos ha]
          refine ih _ f s hmem hfs ?_
          rw [keysOf_hmAdjust]
          exact hkey
        · rw [if_neg ha]

/-- C1 (amended): a derived file whose `derivedFrom` path is no source
path of the input makes `group_photo_files_impl` panic (the `.expect` on
the index lookup, whose message carries the offending path) — the
function aborts instead of returning a `MissingSourceError` value; the
code has no such error variant. -/
theorem c1_missing_source_panics (files : List File)
    (h : ∃ f ∈ files, ∃ s, f.derived_from = some s ∧
      ∀ g ∈ files, g.derived_from = none → g.path ≠ s) :
    group_photo_files_impl files = none := by
  obtain ⟨f, hf, s, hfs, hnos⟩ := h
  have hkey : s ∉ keysOf (pass1 [] files) := by
    intro hs
    rw [pass1_keys files [] s] at hs
    rcases hs with hs | ⟨g, hg, hgs, hgx⟩
    · simp [keysOf] at hs
    · exact hnos g hg hgs hgx
  have hnone : pass2 (pass1 [] files) files = none :=
    pass2_missing files (pass1 [] files) f s hf hfs hkey
  rw [group_photo_files_impl, buildMap, hnone]
  rfl

/-- C1 counterexample: on an input holding one derived file that
references an absent source, the grouping panics (models as `none`); it
does not return an error value to the caller. -/
theorem c1_counterexample :
    group_photo_files_impl [⟨["/", "a", "1.xmp"], some ["/", "a", "1.cr2"]⟩] = none := by
  rfl

/-- C1 witness: the amended claim applied at a concrete derived file with
a dangling reference. -/
theorem c1_missing_source_witness :
    group_photo_files_impl [⟨["/", "b", "2.jpg"], some ["/", "b", "2.cr2"]⟩] = none :=
  c1_missing_source_panics [⟨["/", "b", "2.jpg"], some ["/", "b", "2.cr2"]⟩]
    ⟨⟨["/", "b", "2.jpg"], some ["/", "b", "2.cr2"]⟩, by simp, ["/", "b", "2.cr2"], rfl,
      by
        intro g hg hgs
        simp at hg
        rw [hg] at hgs
        cases hgs⟩

/-- An entry after `hmInsert` is the inserted binding or an untouched one. -/
theorem hmInsert_mem (m : List (FPath × Photo)) (k : FPath) (v : Photo)
    (e : FPath × Photo) (he : e ∈ hmInsert m k v) :
    e = (k, v) ∨ (e ∈ m ∧ e.1 ≠ k) := by
  rw [hmInsert] at he
  by_cases h : m.any (fun e => e.1 = k) = true
  · rw [if_pos h] at he
    rw [List.mem_map] at he
    obtain ⟨e0, he0, hfe⟩ := he
    by_cases hek : e0.1 = k
    · rw [if_pos hek] at hfe
      left
      rw [← hfe, hek]
    · rw [if_neg hek] at hfe
      right
      rw [← hfe]
      exact ⟨he0, hek⟩
  · rw [if_neg h] at he
    rcases List.mem_append.mp he with he | he
    · right
      refine ⟨he, ?_⟩
      intro hek
      exact h ((anyKey_iff m k).mpr (by rw [keysOf, List.mem_map]; exact ⟨e, he, hek⟩))
    · left
      simpa using he

/-- `hmInsert` keeps the keys set free of duplicates. -/
theorem keysOf_hmInsert_nodup (m : List (FPath × Photo)) (k : FPath) (v : Photo)
    (h : (keysOf m).Nodup) : (keysOf (hmInsert m k v)).Nodup := by
  rw [hmInsert]
  by_cases ha : m.any (fun e => e.1 = k) = true
  · rw [if_pos ha]
    have : keysOf (m.map (fun e => if e.1 = k then (e.1, v) else e)) = keysOf m := by
      rw [keysOf, keysOf, List.map_map]
      apply List.map_congr_left
      intro e _
      by_cases hek : e.1 = k
      · simp [hek]
      · simp [hek]
    rw [this]
    exact h
  · rw [if_neg ha]
    have hmap : keysOf (m ++ [(k, v)]) = keysOf m ++ [k] := by
      rw [keysOf, List.map_append]
      rfl
    rw [hmap]
    rw [List.nodup_append]
    refine ⟨h, List.nodup_singleton k, ?_⟩
    intro x hx hxk
    rw [List.mem_singleton] at hxk
    rw [hxk] at hx
    exact ha ((anyKey_iff m k).mpr hx)

/-- Pass 1 keeps the keys free of duplicates. -/
theorem pass1_keys_nodup :
    ∀ (fs : List File) (m : List (FPath × Photo)),
      (keysOf m).Nodup → (keysOf (pass1 m fs)).Nodup := by
  intro fs
  induction fs with
  | nil => intro m h; exact h
  | cons f rest ih =>
    intro m h
    rw [pass1]
    by_cases hf : f.derived_from = none
    · rw [if_pos hf]
      exact ih _ (keysOf_hmInsert_nodup m f.path ⟨f.path, []⟩ h)
    · rw [if_neg hf]
      exact ih m h

/-- Every entry pass 1 produces binds a key to the fresh photo of that key. -/
theorem pass1_entries :
    ∀ (fs : List File) (m : List (FPath × Photo)),
      (∀ e ∈ m, e.2 = ⟨e.1, []⟩) → ∀ e ∈ pass1 m fs, e.2 = ⟨e.1, []⟩ := by
  intro fs
  induction fs with
  | nil => intro m h; exact h
  | cons f rest ih =>
    intro m h e he
    rw [pass1] at he
    by_cases hf : f.derived_from = none
    · rw [if_pos hf] at he
      refine ih _ ?_ e he
      intro e' he'
      rcases hmInsert_mem m f.path ⟨f.path, []⟩ e' he' with he' | ⟨he', _⟩
      · rw [he']
      · exact h e' he'
    · rw [if_neg hf] at he
      exact ih m h e he

/-- Pass 2 rewrites the whole map pointwise: each binding keeps its key
and source, and its derived list grows by the paths of exactly those
derived files referencing its key, in encounter order. -/
theorem pass2_map_form :
    ∀ (fs : List File) (m m' : List (FPath × Photo)), pass2 m fs = some m' →
      m' = m.map (fun e => (e.1, ⟨e.2.source,
        e.2.derived ++ ((fs.filter (fun f => f.derived_from = some e.1)).map (fun f => f.path))⟩)) := by
  intro fs
  induction fs with
  | nil =>
    intro m m' h
    rw [pass2] at h
    cases h
    simp
  | cons f rest ih =>
    intro m m' h
    cases hf : f.derived_from with
    | none =>
      rw [pass2_cons_none m f rest hf] at h
      rw [ih m m' h]
      apply List.map_congr_left
      intro e _
      rw [List.filter_cons]
      simp [hf]
    | some s =>
      rw [pass2_cons_some m f rest s hf] at h
      by_cases ha : m.any (fun e => e.1 = s) = true
      · rw [if_pos ha] at h
        rw [ih _ m' h, hmAdjust, List.map_map]
        apply List.map_congr_left
        intro e _
        by_cases hek : e.1 = s
        · simp only [Function.comp, if_pos hek, List.filter_cons]
          have : (f.derived_from = some e.1) := by rw [hf, hek]
          simp [this, List.append_assoc]
        · simp only [Function.comp, if_neg hek, List.filter_cons]
          have : ¬ (f.derived_from = some e.1) := by
            rw [hf]
            intro hc
            cases hc
            exact hek rfl
          simp [this]
      · rw [if_neg ha] at h
        cases h

/-- C8: whenever the grouping returns (rather than panics), the output is
sorted ascending by source path; each photo's derived list is exactly the
input's derived files referencing its source, in encounter order; and
every source file of the input appears as the source of some output photo
(with no derived references, that photo's derived list is empty by the
second part). -/
theorem c8_group_photo_files_spec (files : List File) (res : List Photo)
    (hok : group_photo_files_impl files = some res) :
    List.Sorted (leOfCmp photoCmp) res ∧
    (∀ ph ∈ res, ph.derived =
      (files.filter (fun f => f.derived_from = some ph.source)).map (fun f => f.path)) ∧
    (∀ f ∈ files, f.derived_from = none → ∃ ph ∈ res, ph.source = f.path) := by
  rw [group_photo_files_impl] at hok
  cases hbm : buildMap files with
  | none => rw [hbm] at hok; cases hok
  | some m =>
    rw [hbm] at hok
    simp only [Option.map_some', Option.some.injEq] at hok
    have hform := pass2_map_form files (pass1 [] files) m hbm
    have hent := pass1_entries files [] (by intro e he; simp at he)
    refine ⟨?_, ?_, ?_⟩
    · rw [← hok]
      exact sortByCmp_sorted photoCmp_swap photoCmp_le_trans (valuesOf m)
    · intro ph hph
      rw [← hok] at hph
      have hph' : ph ∈ valuesOf m :=
        (sortByCmp_perm photoCmp (valuesOf m)).mem_iff.mp hph
      rw [valuesOf, List.mem_map] at hph'
      obtain ⟨e, he, hev⟩ := hph'
      rw [hform, List.mem_map] at he
      obtain ⟨e0, he0, hfe⟩ := he
      have h0 : e0.2 = ⟨e0.1, []⟩ := hent e0 he0
      rw [← hfe] at hev
      simp only [h0] at hev
      rw [← hev]
      simp
    · intro f hf hsrc
      have hkey : f.path ∈ keysOf (pass1 [] files) :=
        (pass1_keys files [] f.path).mpr (Or.inr ⟨f, hf, hsrc, rfl⟩)
      rw [keysOf, List.mem_map] at hkey
      obtain ⟨e0, he0, he0k⟩ := hkey
      have h0 : e0.2 = ⟨e0.1, []⟩ := hent e0 he0
      refine ⟨⟨e0.1, ((files.filter (fun g => g.derived_from = some e0.1)).map (fun g => g.path))⟩, ?_, he0k⟩
      rw [← hok]
      rw [(sortByCmp_perm photoCmp (valuesOf m)).mem_iff]
      rw [valuesOf, hform, List.map_map, List.mem_map]
      refine ⟨e0, he0, ?_⟩
      simp [Function.comp, h0]

/-- C8 witness: the invariants at the repository's own second grouping
test (source `1.cr2` with three derived files, plus two standalone
sources). -/
theorem c8_group_photo_files_witness :
    List.Sorted (leOfCmp photoCmp)
      [⟨["/", "a", "1.cr2"], [["/", "a", "1.jpg"], ["/", "a", "1.xmp"], ["/", "a", "1_v2.xmp"]]⟩,
       ⟨["/", "a", "2.mov"], []⟩, ⟨["/", "a", "3.jpg"], []⟩] ∧
    (∀ ph ∈ ([⟨["/", "a", "1.cr2"], [["/", "a", "1.jpg"], ["/", "a", "1.xmp"], ["/", "a", "1_v2.xmp"]]⟩,
       ⟨["/", "a", "2.mov"], []⟩, ⟨["/", "a", "3.jpg"], []⟩] : List Photo), ph.derived =
      (([⟨["/", "a", "1.jpg"], some ["/", "a", "1.cr2"]⟩, ⟨["/", "a", "1.cr2"], none⟩,
         ⟨["/", "a", "2.mov"], none⟩, ⟨["/", "a", "1.xmp"], some ["/", "a", "1.cr2"]⟩,
         ⟨["/", "a", "1_v2.xmp"], some ["/", "a", "1.cr2"]⟩, ⟨["/", "a", "3.jpg"], none⟩] : List File).filter
        (fun f => f.derived_from = some ph.source)).map (fun f => f.path)) ∧
    (∀ f ∈ ([⟨["/", "a", "1.jpg"], some ["/", "a", "1.cr2"]⟩, ⟨["/", "a", "1.cr2"], none⟩,
         ⟨["/", "a", "2.mov"], none⟩, ⟨["/", "a", "1.xmp"], some ["/", "a", "1.cr2"]⟩,
         ⟨["/", "a", "1_v2.xmp"], some ["/", "a", "1.cr2"]⟩, ⟨["/", "a", "3.jpg"], none⟩] : List File),
      f.derived_from = none →
      ∃ ph ∈ ([⟨["/", "a", "1.cr2"], [["/", "a", "1.jpg"], ["/", "a", "1.xmp"], ["/", "a", "1_v2.xmp"]]⟩,
       ⟨["/", "a", "2.mov"], []⟩, ⟨["/", "a", "3.jpg"], []⟩] : List Photo), ph.source = f.path) :=
  c8_group_photo_files_spec
    [⟨["/", "a", "1.jpg"], some ["/", "a", "1.cr2"]⟩, ⟨["/", "a", "1.cr2"], none⟩,
     ⟨["/", "a", "2.mov"], none⟩, ⟨["/", "a", "1.xmp"], some ["/", "a", "1.cr2"]⟩,
     ⟨["/", "a", "1_v2.xmp"], some ["/", "a", "1.cr2"]⟩, ⟨["/", "a", "3.jpg"], none⟩]
    [⟨["/", "a", "1.cr2"], [["/", "a", "1.jpg"], ["/", "a", "1.xmp"], ["/", "a", "1_v2.xmp"]]⟩,
     ⟨["/", "a", "2.mov"], []⟩, ⟨["/", "a", "3.jpg"], []⟩] rfl

/-- Adjusting an absent key changes nothing. -/
theorem hmAdjust_id (m : List (FPath × Photo)) (s p : FPath) (h : s ∉ keysOf m) :
    hmAdjust m s p = m := by
  rw [hmAdjust]
  have hcg : ∀ e ∈ m, (if e.1 = s then (e.1, (⟨e.2.source, e.2.derived ++ [p]⟩ : Photo)) else e) = e := by
    intro e he
    rw [if_neg]
    intro hek
    exact h (by rw [keysOf, List.mem_map]; exact ⟨e, he, hek⟩)
  rw [List.map_congr_left hcg]
  exact List.map_id' m

/-- Permuting a list of lists permutes its concatenation. -/
theorem cat_perm {l1 l2 : List (List α)} (h : l1.Perm l2) : (cat l1).Perm (cat l2) := by
  induction h with
  | nil => exact List.Perm.refl _
  | cons x _ ih => exact List.Perm.append_left x ih
  | swap x y l =>
    show (y ++ (x ++ cat l)).Perm (x ++ (y ++ cat l))
    rw [← List.append_assoc, ← List.append_assoc]
    exact List.Perm.append_right (cat l) List.perm_append_comm
  | trans _ _ ih1 ih2 => exact ih1.trans ih2

/-- A single `hmAdjust` on a present key adds exactly the one appended
path to the concatenation of all derived lists. -/
theorem hmAdjust_cat (m : List (FPath × Photo)) (s p : FPath)
    (hnd : (keysOf m).Nodup) (hs : s ∈ keysOf m) :
    (cat ((valuesOf (hmAdjust m s p)).map (fun v => v.derived))).Perm
      (cat ((valuesOf m).map (fun v => v.derived)) ++ [p]) := by
  induction m with
  | nil => simp [keysOf] at hs
  | cons e rest ih =>
    have hnd0 := hnd
    simp only [keysOf, List.map_cons, List.nodup_cons] at hnd0
    by_cases hek : e.1 = s
    · have hsr : s ∉ keysOf rest := by
        rw [← hek]
        intro hc
        exact hnd0.1 hc
      have hid : hmAdjust rest s p = rest := hmAdjust_id rest s p hsr
      have hstep : hmAdjust (e :: rest) s p
          = (e.1, (⟨e.2.source, e.2.derived ++ [p]⟩ : Photo)) :: hmAdjust rest s p := by
        rw [hmAdjust, hmAdjust, List.map_cons, if_pos hek]
      rw [hstep, hid]
      show ((e.2.derived ++ [p]) ++ cat ((valuesOf rest).map (fun v => v.derived))).Perm
        ((e.2.derived ++ cat ((valuesOf rest).map (fun v => v.derived))) ++ [p])
      rw [List.append_assoc, List.append_assoc]
      exact List.Perm.append_left e.2.derived List.perm_append_comm
    · have hsr : s ∈ keysOf rest := by
        simp only [keysOf, List.map_cons, List.mem_cons] at hs
        rcases hs with hs | hs
        · exact absurd hs.symm hek
        · exact hs
      have hrec := ih hnd0.2 hsr
      have hstep : hmAdjust (e :: rest) s p = e :: hmAdjust rest s p := by
        rw [hmAdjust, hmAdjust, List.map_cons, if_neg hek]
      rw [hstep]
      show (e.2.derived ++ cat ((valuesOf (hmAdjust rest s p)).map (fun v => v.derived))).Perm
        ((e.2.derived ++ cat ((valuesOf rest).map (fun v => v.derived))) ++ [p])
      rw [List.append_assoc]
      exact List.Perm.append_left e.2.derived hrec

/-- Through pass 2, the concatenated derived lists grow by exactly the
paths of the input's derived files. -/
theorem pass2_derived_cat :
    ∀ (fs : List File) (m m' : List (FPath × Photo)),
      (keysOf m).Nodup → pass2 m fs = some m' →
      (cat ((valuesOf m').map (fun v => v.derived))).Perm
        (cat ((valuesOf m).map (fun v => v.derived)) ++
          (fs.filter (fun f => !decide (f.derived_from = none))).map (fun f => f.path)) := by
  intro fs
  induction fs with
  | nil =>
    intro m m' hnd h
    rw [pass2] at h
    cases h
    simp
  | cons f rest ih =>
    intro m m' hnd h
    cases hf : f.derived_from with
    | none =>
      rw [pass2_cons_none m f rest hf] at h
      rw [List.filter_cons]
      have hb : (!decide (f.derived_from = none)) = false := by simp [hf]
      rw [hb]
      simp only [Bool.false_eq_true, if_false]
      exact ih m m' hnd h
    | some s =>
      rw [pass2_cons_some m f rest s hf] at h
      by_cases ha : m.any (fun e => e.1 = s) = true
      · rw [if_pos ha] at h
        have hnd2 : (keysOf (hmAdjust m s f.path)).Nodup := by
          rw [keysOf_hmAdjust]
          exact hnd
        have hrec := ih (hmAdjust m s f.path) m' hnd2 h
        have hadj := hmAdjust_cat m s f.path hnd ((anyKey_iff m s).mp ha)
        rw [List.filter_cons]
        have hb : (!decide (f.derived_from = none)) = true := by simp [hf]
        rw [hb]
        simp only [if_true]
        refine hrec.trans ?_
        refine (List.Perm.append_right _ hadj).trans ?_
        rw [List.append_assoc, List.map_cons]
        exact List.Perm.refl _
      · rw [if_neg ha] at h
        cases h

/-- With pairwise-distinct fresh source paths, pass 1 appends one fresh
binding per source file, in order. -/
theorem pass1_eq :
    ∀ (fs : List File) (m : List (FPath × Photo)),
      (∀ f ∈ fs, f.derived_from = none → f.path ∉ keysOf m) →
      ((fs.filter (fun f => f.derived_from = none)).map (fun f => f.path)).Nodup →
      pass1 m fs = m ++ (fs.filter (fun f => f.derived_from = none)).map
        (fun f => (f.path, (⟨f.path, []⟩ : Photo))) := by
  intro fs
  induction fs with
  | nil =>
    intro m _ _
    simp [pass1]
  | cons f rest ih =>
    intro m hdisj hnd
    rw [pass1]
    by_cases hf : f.derived_from = none
    · rw [if_pos hf]
      have hfil : (f :: rest).filter (fun f => f.derived_from = none)
          = f :: rest.filter (fun f => f.derived_from = none) := by
        rw [List.filter_cons]
        simp [hf]
      rw [hfil] at hnd
      rw [List.map_cons, List.nodup_cons] at hnd
      have hins : hmInsert m f.path ⟨f.path, []⟩ = m ++ [(f.path, ⟨f.path, []⟩)] := by
        rw [hmInsert, if_neg]
        intro ha
        exact hdisj f (by simp) hf ((anyKey_iff m f.path).mp ha)
      rw [hins]
      have hdisj' : ∀ g ∈ rest, g.derived_from = none →
          g.path ∉ keysOf (m ++ [(f.path, (⟨f.path, []⟩ : Photo))]) := by
        intro g hg hgs
        have hmap : keysOf (m ++ [(f.path, (⟨f.path, []⟩ : Photo))]) = keysOf m ++ [f.path] := by
          rw [keysOf, List.map_append]
          rfl
        rw [hmap, List.mem_append, List.mem_singleton]
        rintro (hc | hc)
        · exact hdisj g (by simp [hg]) hgs hc
        · refine hnd.1 ?_
          rw [← hc, List.mem_map]
          exact ⟨g, List.mem_filter.mpr ⟨hg, by simp [hgs]⟩, rfl⟩
      rw [ih _ hdisj' hnd.2, hfil]
      rw [List.map_cons, List.append_assoc]
      rfl
    · rw [if_neg hf]
      have hfil : (f :: rest).filter (fun f => f.derived_from = none)
          = rest.filter (fun f => f.derived_from = none) := by
        rw [List.filter_cons]
        simp [hf]
      rw [hfil] at hnd
      rw [hfil]
      exact ih m (fun g hg hgs => hdisj g (by simp [hg]) hgs) hnd

/-- Concatenating copies of the empty list gives the empty list. -/
theorem cat_nils (l : List File) :
    cat (l.map (fun _ => ([] : List FPath))) = [] := by
  induction l with
  | nil => rfl
  | cons x xs ih => simpa [cat] using ih

/-- Splitting each photo into its source and its derived files splits the
concatenation, up to order. -/
theorem cat_cons_split (l : List Photo) :
    (cat (l.map (fun ph => ph.source :: ph.derived))).Perm
      (l.map (fun ph => ph.source) ++ cat (l.map (fun ph => ph.derived))) := by
  induction l with
  | nil => exact List.Perm.refl _
  | cons ph rest ih =>
    show (ph.source :: (ph.derived ++ cat (rest.map (fun ph => ph.source :: ph.derived)))).Perm
      (ph.source :: (rest.map (fun ph => ph.source) ++ (ph.derived ++ cat (rest.map (fun ph => ph.derived)))))
    refine List.Perm.cons ph.source ?_
    refine (List.Perm.append_left ph.derived ih).trans ?_
    rw [← List.append_assoc, ← List.append_assoc]
    exact List.Perm.append_right _ List.perm_append_comm

/-- C10: with pairwise-distinct input paths, a run of the grouping that
returns loses and duplicates nothing: the output sources are exactly the
input's source-file paths, the concatenated derived lists are exactly the
input's derived-file paths, and all output paths together are exactly all
input paths (each as a permutation, hence — the input paths being
distinct — each input path occurs exactly once, in the position its
classification dictates). -/
theorem c10_grouping_preserves_files (files : List File) (res : List Photo)
    (hnd : (files.map (fun f => f.path)).Nodup)
    (hok : group_photo_files_impl files = some res) :
    ((res.map (fun ph => ph.source)).Perm
      ((files.filter (fun f => f.derived_from = none)).map (fun f => f.path))) ∧
    ((cat (res.map (fun ph => ph.derived))).Perm
      ((files.filter (fun f => !decide (f.derived_from = none))).map (fun f => f.path))) ∧
    ((cat (res.map (fun ph => ph.source :: ph.derived))).Perm (files.map (fun f => f.path))) := by
  rw [group_photo_files_impl] at hok
  cases hbm : buildMap files with
  | none => rw [hbm] at hok; cases hok
  | some m =>
    rw [hbm] at hok
    simp only [Option.map_some', Option.some.injEq] at hok
    have hform := pass2_map_form files (pass1 [] files) m hbm
    have hndF : ((files.filter (fun f => f.derived_from = none)).map (fun f => f.path)).Nodup :=
      List.Nodup.sublist (List.Sublist.map _ (List.filter_sublist files)) hnd
    have hp1 : pass1 [] files = (files.filter (fun f => f.derived_from = none)).map
        (fun f => (f.path, (⟨f.path, []⟩ : Photo))) := by
      have := pass1_eq files [] (by intro f _ _; simp [keysOf]) hndF
      simpa using this
    have hperm : res.Perm (valuesOf m) := by
      rw [← hok]
      exact sortByCmp_perm photoCmp (valuesOf m)
    have hsrcs : (valuesOf m).map (fun ph => ph.source)
        = (files.filter (fun f => f.derived_from = none)).map (fun f => f.path) := by
      rw [hform, hp1, valuesOf]
      simp only [List.map_map]
      rfl
    have ha : (res.map (fun ph => ph.source)).Perm
        ((files.filter (fun f => f.derived_from = none)).map (fun f => f.path)) := by
      rw [← hsrcs]
      exact hperm.map (fun ph => ph.source)
    have hndK : (keysOf (pass1 [] files)).Nodup :=
      pass1_keys_nodup files [] (by simp [keysOf])
    have hnil : cat ((valuesOf (pass1 [] files)).map (fun v => v.derived)) = [] := by
      rw [hp1, valuesOf]
      simp only [List.map_map]
      exact cat_nils (files.filter (fun f => f.derived_from = none))
    have hb : (cat (res.map (fun ph => ph.derived))).Perm
        ((files.filter (fun f => !decide (f.derived_from = none))).map (fun f => f.path)) := by
      refine (cat_perm (hperm.map (fun ph => ph.derived))).trans ?_
      have := pass2_derived_cat files (pass1 [] files) m hndK hbm
      rw [hnil, List.nil_append] at this
      exact this
    refine ⟨ha, hb, ?_⟩
    refine (cat_cons_split res).trans ?_
    refine (List.Perm.append ha hb).trans ?_
    have := (List.filter_append_perm (fun f => decide (f.derived_from = none)) files).map
      (fun f => f.path)
    rw [List.map_append] at this
    exact this

/-- C10 witness: the no-loss facts at a small concrete input with
distinct paths. -/
theorem c10_grouping_preserves_files_witness :
    ((([⟨["/", "a", "1.cr2"], [["/", "a", "1.jpg"]]⟩, ⟨["/", "a", "2.mov"], []⟩] : List Photo).map
        (fun ph => ph.source)).Perm
      ((([⟨["/", "a", "1.jpg"], some ["/", "a", "1.cr2"]⟩, ⟨["/", "a", "1.cr2"], none⟩,
          ⟨["/", "a", "2.mov"], none⟩] : List File).filter
        (fun f => f.derived_from = none)).map (fun f => f.path))) ∧
    ((cat (([⟨["/", "a", "1.cr2"], [["/", "a", "1.jpg"]]⟩, ⟨["/", "a", "2.mov"], []⟩] : List Photo).map
        (fun ph => ph.derived))).Perm
      ((([⟨["/", "a", "1.jpg"], some ["/", "a", "1.cr2"]⟩, ⟨["/", "a", "1.cr2"], none⟩,
          ⟨["/", "a", "2.mov"], none⟩] : List File).filter
        (fun f => !decide (f.derived_from = none))).map (fun f => f.path))) ∧
    ((cat (([⟨["/", "a", "1.cr2"], [["/", "a", "1.jpg"]]⟩, ⟨["/", "a", "2.mov"], []⟩] : List Photo).map
        (fun ph => ph.source :: ph.derived))).Perm
      (([⟨["/", "a", "1.jpg"], some ["/", "a", "1.cr2"]⟩, ⟨["/", "a", "1.cr2"], none⟩,
          ⟨["/", "a", "2.mov"], none⟩] : List File).map (fun f => f.path))) :=
  c10_grouping_preserves_files
    [⟨["/", "a", "1.jpg"], some ["/", "a", "1.cr2"]⟩, ⟨["/", "a", "1.cr2"], none⟩,
     ⟨["/", "a", "2.mov"], none⟩]
    [⟨["/", "a", "1.cr2"], [["/", "a", "1.jpg"]]⟩, ⟨["/", "a", "2.mov"], []⟩]
    (by decide) rfl

/-- The finished index binds every key to a photo whose source is that
key, and its keys are pairwise distinct. -/
theorem buildMap_inv (files : List File) (m : List (FPath × Photo))
    (hok : buildMap files = some m) :
    (∀ e ∈ m, e.2.source = e.1) ∧ (keysOf m).Nodup := by
  have hform := pass2_map_form files (pass1 [] files) m hok
  have hent := pass1_entries files [] (by intro e he; simp at he)
  constructor
  · intro e he
    rw [hform, List.mem_map] at he
    obtain ⟨e0, he0, hfe⟩ := he
    rw [← hfe]
    have h0 : e0.2 = ⟨e0.1, []⟩ := hent e0 he0
    simp [h0]
  · have hkeys : keysOf m = keysOf (pass1 [] files) := by
      rw [hform, keysOf, keysOf, List.map_map]
      rfl
    rw [hkeys]
    exact pass1_keys_nodup files [] (by simp [keysOf])

/-- C9: the sorted photo list — hence the whole command plan — does not
depend on the enumeration order of the hash map's values: any permutation
`vs` of the indexed photos sorts to the same list, and planning from it
yields the identical command sequence for every date function and output
directory.  Two runs on fixed inputs therefore produce identical plans. -/
theorem c9_plan_deterministic (files : List File) (m : List (FPath × Photo)) (vs : List Photo)
    (hok : buildMap files = some m) (hperm : vs.Perm (valuesOf m)) :
    sortByCmp photoCmp vs = sortByCmp photoCmp (valuesOf m) ∧
    (∀ (dates : FPath → Option Timestamp) (out_dir : FPath),
      group_files_by_date_plan dates (sortByCmp photoCmp vs) out_dir =
        group_files_by_date_plan dates (sortByCmp photoCmp (valuesOf m)) out_dir) := by
  obtain ⟨hkey, hndK⟩ := buildMap_inv files m hok
  have hndsrc : ((valuesOf m).map (fun ph => ph.source)).Nodup := by
    have heq : (valuesOf m).map (fun ph => ph.source) = keysOf m := by
      rw [valuesOf, keysOf, List.map_map]
      apply List.map_congr_left
      intro e he
      exact hkey e he
    rw [heq]
    exact hndK
  have hstrict : ∀ l : List Photo, l.Perm (valuesOf m) →
      List.Sorted (leOfCmp photoCmp) l → List.Sorted (ltOfCmp photoCmp) l := by
    intro l hp hsorted
    have hn : (l.map (fun ph => ph.source)).Nodup :=
      ((hp.map (fun ph => ph.source)).nodup_iff).mpr hndsrc
    have hpne : l.Pairwise (fun a b => a.source ≠ b.source) := List.pairwise_map.mp hn
    refine (hsorted.and hpne).imp ?_
    intro a b hab
    cases hcmp : photoCmp a b with
    | lt => exact hcmp
    | gt => exact absurd hcmp hab.1
    | eq =>
      exact absurd ((pathCmp_lawful.eq_iff a.source b.source).mp hcmp) hab.2
  have h1p : (sortByCmp photoCmp vs).Perm (valuesOf m) :=
    (sortByCmp_perm photoCmp vs).trans hperm
  have h2p : (sortByCmp photoCmp (valuesOf m)).Perm (valuesOf m) :=
    sortByCmp_perm photoCmp (valuesOf m)
  have h12 : (sortByCmp photoCmp vs).Perm (sortByCmp photoCmp (valuesOf m)) :=
    h1p.trans h2p.symm
  have hs1 : List.Sorted (ltOfCmp photoCmp) (sortByCmp photoCmp vs) :=
    hstrict _ h1p (sortByCmp_sorted photoCmp_swap photoCmp_le_trans vs)
  have hs2 : List.Sorted (ltOfCmp photoCmp) (sortByCmp photoCmp (valuesOf m)) :=
    hstrict _ h2p (sortByCmp_sorted photoCmp_swap photoCmp_le_trans (valuesOf m))
  haveI : IsAntisymm Photo (ltOfCmp photoCmp) := by
    constructor
    intro a b h1 h2
    rw [ltOfCmp, photoCmp_swap a b, h1] at h2
    cases h2
  have heq : sortByCmp photoCmp vs = sortByCmp photoCmp (valuesOf m) :=
    List.eq_of_perm_of_sorted h12 hs1 hs2
  exact ⟨heq, fun dates out_dir => by rw [heq]⟩

/-- C9 witness: a reversed value enumeration of a concrete index sorts to
the same photo list. -/
theorem c9_plan_deterministic_witness :
    sortByCmp photoCmp
      [⟨["/", "a", "2.cr2"], []⟩, ⟨["/", "a", "1.cr2"], [["/", "a", "1.jpg"]]⟩]
      = sortByCmp photoCmp (valuesOf
        [(["/", "a", "1.cr2"], ⟨["/", "a", "1.cr2"], [["/", "a", "1.jpg"]]⟩),
         (["/", "a", "2.cr2"], ⟨["/", "a", "2.cr2"], []⟩)]) :=
  (c9_plan_deterministic
    [⟨["/", "a", "1.cr2"], none⟩, ⟨["/", "a", "1.jpg"], some ["/", "a", "1.cr2"]⟩,
     ⟨["/", "a", "2.cr2"], none⟩]
    [(["/", "a", "1.cr2"], ⟨["/", "a", "1.cr2"], [["/", "a", "1.jpg"]]⟩),
     (["/", "a", "2.cr2"], ⟨["/", "a", "2.cr2"], []⟩)]
    [⟨["/", "a", "2.cr2"], []⟩, ⟨["/", "a", "1.cr2"], [["/", "a", "1.jpg"]]⟩]
    rfl (by decide)).1

/-- `linCmp` answers `lt` exactly on smaller elements. -/
theorem linCmp_lt_iff {α : Type _} [LinearOrder α] (a b : α) :
    linCmp a b = .lt ↔ a < b := by
  unfold linCmp
  split_ifs with h1 h2
  · simp [h1]
  · simp [h1]
  · simp [h1]

/-- `natCmp` answers `lt` exactly on smaller naturals. -/
theorem natCmp_lt_iff (a b : Nat) : natCmp a b = .lt ↔ a < b := linCmp_lt_iff a b

/-- The lexicographic comparator answers `lt` exactly on
lexicographically smaller lists. -/
theorem listCmp_lt_iff {c : α → α → Ordering} {r : α → α → Prop}
    (hlt : ∀ a b, c a b = .lt ↔ r a b) (heq : ∀ a b, c a b = .eq ↔ a = b) :
    ∀ xs ys, listCmp c xs ys = .lt ↔ List.Lex r xs ys := by
  intro xs
  induction xs with
  | nil =>
    intro ys
    cases ys with
    | nil =>
      constructor
      · intro h
        simp [listCmp] at h
      · intro h
        cases h
    | cons y ys =>
      constructor
      · intro _
        exact List.Lex.nil
      · intro _
        simp [listCmp]
  | cons x xs ih =>
    intro ys
    cases ys with
    | nil =>
      constructor
      · intro h
        simp [listCmp] at h
      · intro h
        cases h
    | cons y ys =>
      constructor
      · intro h
        simp only [listCmp] at h
        cases hc : c x y with
        | eq =>
          rw [hc] at h
          have hxy : x = y := (heq x y).mp hc
          rw [hxy]
          exact List.Lex.cons ((ih ys).mp h)
        | lt => exact List.Lex.rel ((hlt x y).mp hc)
        | gt =>
          rw [hc] at h
          cases h
      · intro h
        cases h with
        | rel hr =>
          simp only [listCmp]
          rw [(hlt x y).mpr hr]
        | cons hlex =>
          simp only [listCmp]
          rw [(heq x x).mpr rfl]
          exact (ih ys).mpr hlex

/-- The sort order the specification describes for annotated photos: a
photo with no timestamp sorts before any photo, a photo with a timestamp
never sorts before an undated one, and two dated photos compare by their
timestamps (lexicographically on year, month, day, time of day). -/
def specSortLE (a b : AnnotatedPhoto) : Prop :=
  match a.meta, b.meta with
  | none, _ => True
  | some _, none => False
  | some t1, some t2 => tsKey t1 = tsKey t2 ∨ List.Lex (fun x y : Nat => x < y) (tsKey t1) (tsKey t2)

/-- The comparator of `group_files_by_date` realizes exactly the
specification's sort order. -/
theorem leOfCmp_dateCmp_iff (a b : AnnotatedPhoto) :
    leOfCmp dateCmp a b ↔ specSortLE a b := by
  have hl := listCmp_lawful natCmp_lawful
  cases ha : a.meta with
  | none =>
    cases hb : b.meta with
    | none => simp [leOfCmp, dateCmp, specSortLE, ha, hb]
    | some tb => simp [leOfCmp, dateCmp, specSortLE, ha, hb]
  | some ta =>
    cases hb : b.meta with
    | none => simp [leOfCmp, dateCmp, specSortLE, ha, hb]
    | some tb =>
      simp only [leOfCmp, dateCmp, specSortLE, ha, hb]
      constructor
      · intro h
        cases hc : timeCmp ta tb with
        | gt => exact absurd hc h
        | eq => exact Or.inl ((hl.eq_iff (tsKey ta) (tsKey tb)).mp hc)
        | lt =>
          exact Or.inr ((listCmp_lt_iff natCmp_lt_iff natCmp_lawful.eq_iff
            (tsKey ta) (tsKey tb)).mp hc)
      · intro h hgt
        rcases h with h | h
        · have hc : timeCmp ta tb = .eq := (hl.eq_iff (tsKey ta) (tsKey tb)).mpr h
          rw [hc] at hgt
          cases hgt
        · have hc : timeCmp ta tb = .lt :=
            (listCmp_lt_iff natCmp_lt_iff natCmp_lawful.eq_iff (tsKey ta) (tsKey tb)).mpr h
          rw [hc] at hgt
          cases hgt

/-- The grouping predicate of `group_files_by_date` is calendar-date
equality lifted to optional timestamps. -/
theorem sameDateB_iff (a b : AnnotatedPhoto) :
    sameDateB a b = true ↔ a.meta.map (fun t => t.date) = b.meta.map (fun t => t.date) := by
  cases ha : a.meta with
  | none =>
    cases hb : b.meta with
    | none => simp [sameDateB, ha, hb]
    | some tb => simp [sameDateB, ha, hb]
  | some ta =>
    cases hb : b.meta with
    | none => simp [sameDateB, ha, hb]
    | some tb => simp [sameDateB, ha, hb]

/-- A successful photo loop pairs each photo, at its running index, with
the planner commands for the stem `{i:04}_{name}`, and returns their
concatenation. -/
theorem planPhotos_ok_parts (dir : FPath) (name : String) :
    ∀ (g : List AnnotatedPhoto) (i : Nat) (cs : List Cmd),
      planPhotos dir name i g = .ok cs →
      ∃ parts : List (List Cmd), cs = cat parts ∧
        List.Forall₂ (fun (p : Nat × AnnotatedPhoto) (part : List Cmd) =>
          create_move_commands p.2.photo (natPad 4 p.1 ++ "_" ++ name) dir = .ok part)
          (List.enumFrom i g) parts := by
  intro g
  induction g with
  | nil =>
    intro i cs h
    rw [planPhotos] at h
    cases h
    exact ⟨[], rfl, by simp⟩
  | cons f fs ih =>
    intro i cs h
    rw [planPhotos] at h
    cases hc : create_move_commands f.photo (natPad 4 i ++ "_" ++ name) dir with
    | error e =>
      rw [hc] at h
      cases h
    | ok c =>
      rw [hc] at h
      cases hr : planPhotos dir name (i + 1) fs with
      | error e =>
        rw [hr] at h
        cases h
      | ok rest =>
        rw [hr] at h
        cases h
        obtain ⟨parts, hcat, hf2⟩ := ih (i + 1) rest hr
        refine ⟨c :: parts, by rw [cat, hcat], ?_⟩
        rw [List.enumFrom_cons]
        exact List.Forall₂.cons hc hf2

/-- C3: the orchestrator's plan is built exactly as described: the
annotated photos are (stably) sorted by a total order placing undated
photos before any dated ones and dated photos ascending by timestamp;
the sorted sequence is grouped consecutively by calendar-date equality
(two absent dates agree, an absent and a present date never do); and the
plan is the group-by-group emission of `CreateDirectory(outDir/groupName)`
— `groupName` being "no-date" for an undated group and the `YYYY-MM-DD`
date otherwise — followed by each photo's planner commands for the stem
`{i:04}_{groupName}`, indices counted from 0 within the group. -/
theorem c3_group_files_by_date_spec (dates : FPath → Option Timestamp)
    (photos : List Photo) (out_dir : FPath) :
    (sortByCmp dateCmp (date_photo_files dates photos)).Perm (date_photo_files dates photos) ∧
    (sortByCmp dateCmp (date_photo_files dates photos)).Sorted specSortLE ∧
    (∀ a b, sameDateB a b = true ↔ a.meta.map (fun t => t.date) = b.meta.map (fun t => t.date)) ∧
    group_files_by_date_plan dates photos out_dir
      = planGroups out_dir (groupByFn sameDateB (sortByCmp dateCmp (date_photo_files dates photos))) ∧
    (∀ (x : AnnotatedPhoto) (g : List AnnotatedPhoto), groupNameOf (x :: g)
      = match x.meta with | some t => fmtDate t.date | none => "no-date") ∧
    (∀ (g : List AnnotatedPhoto) (cs : List Cmd), planGroup out_dir g = .ok cs →
      ∃ cs', cs = Cmd.CreateDirectory (pathJoin out_dir (groupNameOf g)) :: cs' ∧
        planPhotos (pathJoin out_dir (groupNameOf g)) (groupNameOf g) 0 g = .ok cs') ∧
    (∀ (dir : FPath) (name : String) (i : Nat) (g : List AnnotatedPhoto) (cs : List Cmd),
      planPhotos dir name i g = .ok cs →
      ∃ parts : List (List Cmd), cs = cat parts ∧
        List.Forall₂ (fun (p : Nat × AnnotatedPhoto) (part : List Cmd) =>
          create_move_commands p.2.photo (natPad 4 p.1 ++ "_" ++ name) dir = .ok part)
          (List.enumFrom i g) parts) := by
  refine ⟨sortByCmp_perm dateCmp (date_photo_files dates photos), ?_, sameDateB_iff, rfl,
    fun x g => rfl, ?_, fun dir name i g cs h => planPhotos_ok_parts dir name g i cs h⟩
  · have hs := sortByCmp_sorted dateCmp_swap dateCmp_le_trans (date_photo_files dates photos)
    exact hs.imp (fun hab => (leOfCmp_dateCmp_iff _ _).mp hab)
  · intro g cs h
    rw [planGroup] at h
    cases hp : planPhotos (pathJoin out_dir (groupNameOf g)) (groupNameOf g) 0 g with
    | error e =>
      rw [hp] at h
      cases h
    | ok cs' =>
      rw [hp] at h
      cases h
      refine ⟨cs', rfl, ?_⟩
      exact rfl
